import Mathlib

/-
Verification development for the participant-name resolution protocol of the
two-sided messaging feature (mobile employee app + HR dashboard).

The JavaScript source is shallowly embedded: loosely-typed JavaScript values
are modelled by the inductive type JsVal, JSON.parse is modelled by an
executable recursive-descent parser for the JSON fragment the roster data
lives in (arrays and strings), try/catch around JSON.parse is modelled by the
parser returning Option, and Firestore timestamps are modelled by TsVal
(a resolved timestamp carries an Int seconds/nanoseconds pair and supports
toMillis; a pending server-timestamp placeholder supports neither).
Array.prototype.sort with a consistent comparator is modelled by a stable
insertion sort, matching the stability guarantee of modern JS engines.
-/

namespace FirebaseChat

/-- Model of a loosely typed JavaScript value as stored in Firestore fields.
Only the shapes the resolution protocol manipulates are represented:
undefined, null, strings and arrays. -/
inductive JsVal where
  | vUndef : JsVal
  | vNull : JsVal
  | vStr (s : String) : JsVal
  | vArr (elems : List JsVal) : JsVal
deriving Repr

/-- JavaScript truthiness for the modelled values: undefined and null are
falsy, a string is falsy iff empty, an array (object) is always truthy. -/
def JsVal.truthy : JsVal → Bool
  | JsVal.vUndef => false
  | JsVal.vNull => false
  | JsVal.vStr s => !s.isEmpty
  | JsVal.vArr _ => true

/-- JavaScript strict equality between a string and an arbitrary value:
true iff the value is that very string. -/
def jsStrEq (v : JsVal) (s : String) : Bool :=
  match v with
  | JsVal.vStr t => t = s
  | _ => false

/-- JavaScript String.prototype.includes, on the character level. -/
def strIncludes (s sub : String) : Bool :=
  decide (List.IsInfix sub.toList s.toList)

/-- JavaScript String.prototype.startsWith, on the character level. -/
def jsStartsWith (s pre : String) : Bool :=
  pre.toList.isPrefixOf s.toList

/-- JavaScript String.prototype.trim: strip leading and trailing
whitespace. -/
def strTrim (s : String) : String :=
  String.mk (((s.toList.dropWhile Char.isWhitespace).reverse.dropWhile
    Char.isWhitespace).reverse)

/-- JavaScript String.prototype.substring(0, n). -/
def strTake (s : String) (n : Nat) : String :=
  String.mk (s.toList.take n)

/-- JavaScript String.prototype.substring(n). -/
def strDrop (s : String) (n : Nat) : String :=
  String.mk (s.toList.drop n)

/-- JavaScript String.prototype.split with a one-character separator:
always at least one (possibly empty) field. -/
def splitOnChar (sep : Char) : List Char → List (List Char)
  | [] => [[]]
  | c :: rest =>
    let r := splitOnChar sep rest
    if c = sep then [] :: r
    else
      match r with
      | h :: t => (c :: h) :: t
      | [] => [[c]]

/-- JavaScript Array.prototype.join with a separator. -/
def joinWith (sep : String) : List String → String
  | [] => ""
  | [x] => x
  | x :: rest => x ++ sep ++ joinWith sep rest

/-- The .length property of the modelled values where the code reads it:
element count for arrays, character count for strings, 0 otherwise. -/
def jsLength : JsVal → Nat
  | JsVal.vArr l => l.length
  | JsVal.vStr s => s.length
  | _ => 0

/-! ## JSON.parse model

An executable parser for the JSON fragment that participantNames data
inhabits: strings (with the common escapes) and arrays, with JSON
whitespace.  Parse failure models the exception JSON.parse would throw,
which every call site catches. -/

/-- Skip JSON whitespace. -/
def skipWs : List Char → List Char
  | [] => []
  | c :: cs => if c = ' ' ∨ c = '\t' ∨ c = '\n' ∨ c = '\r' then skipWs cs else c :: cs

/-- Parse the body of a JSON string literal after the opening quote,
returning the decoded string and the input remaining after the closing
quote.  Supported escapes: quote, backslash, slash, n, t, r. -/
def parseStrChars (acc : List Char) : List Char → Option (String × List Char)
  | [] => none
  | c :: cs =>
    if c = '"' then some (String.mk acc.reverse, cs)
    else if c = '\\' then
      match cs with
      | [] => none
      | d :: ds =>
        if d = '"' then parseStrChars ('"' :: acc) ds
        else if d = '\\' then parseStrChars ('\\' :: acc) ds
        else if d = '/' then parseStrChars ('/' :: acc) ds
        else if d = 'n' then parseStrChars ('\n' :: acc) ds
        else if d = 't' then parseStrChars ('\t' :: acc) ds
        else if d = 'r' then parseStrChars ('\r' :: acc) ds
        else none
    else parseStrChars (c :: acc) cs

mutual

/-- Parse one JSON value (string or array).  Fuel bounds the recursion
depth; any fuel of at least the input length is enough. -/
def parseValue : Nat → List Char → Option (JsVal × List Char)
  | 0, _ => none
  | Nat.succ fuel, input =>
    match skipWs input with
    | '"' :: cs =>
      match parseStrChars [] cs with
      | some (s, rest) => some (JsVal.vStr s, rest)
      | none => none
    | '[' :: cs =>
      match skipWs cs with
      | ']' :: rest => some (JsVal.vArr [], rest)
      | cs2 =>
        match parseElems fuel cs2 with
        | some (vs, rest) => some (JsVal.vArr vs, rest)
        | none => none
    | _ => none

/-- Parse a nonempty comma-separated element list up to and including the
closing bracket of an array. -/
def parseElems : Nat → List Char → Option (List JsVal × List Char)
  | 0, _ => none
  | Nat.succ fuel, input =>
    match parseValue fuel input with
    | none => none
    | some (v, rest) =>
      match skipWs rest with
      | ',' :: cs =>
        match parseElems fuel cs with
        | some (vs, rest2) => some (v :: vs, rest2)
        | none => none
      | ']' :: cs => some ([v], cs)
      | _ => none

end

/-- Model of JSON.parse on the fragment above: the whole input must be
consumed up to trailing whitespace. -/
def jsonParse (s : String) : Option JsVal :=
  let cs := s.toList
  match parseValue (cs.length + 1) cs with
  | some (v, rest) => if (skipWs rest).isEmpty then some v else none
  | none => none

/-! ## Timestamps

A field holding a Firestore timestamp value.  A resolved Firestore
Timestamp object carries a seconds/nanoseconds pair and a toMillis method;
a pending server-timestamp write is observed as a placeholder object with
neither; the field may also be missing (undefined/null), a Date, or a plain
number.  Milliseconds are modelled as Int (no NaN; Date objects are
modelled as valid dates). -/

/-- A resolved Firestore Timestamp (has .seconds, .nanoseconds, .toMillis). -/
structure FsTimestamp where
  seconds : Int
  nanoseconds : Int
deriving Repr, DecidableEq

/-- toMillis of a resolved Firestore Timestamp; nanosecond division is exact
for the whole-millisecond values the server writes. -/
def tsToMillis (t : FsTimestamp) : Int :=
  t.seconds * 1000 + t.nanoseconds / 1000000

/-- A timestamp-typed field as a client observes it. -/
inductive TsVal where
  | missing : TsVal
  | placeholder : TsVal
  | fsT (t : FsTimestamp) : TsVal
  | date (ms : Int) : TsVal
  | num (n : Int) : TsVal
deriving Repr, DecidableEq

/-- JavaScript truthiness of a timestamp field: undefined/null are falsy,
the number 0 is falsy, objects are truthy. -/
def tsTruthy : TsVal → Bool
  | TsVal.missing => false
  | TsVal.num n => n ≠ 0
  | _ => true

/-! ## Records -/

/-- A conversation document as read from the store.  String-or-missing
fields are Option String; the loosely typed roster and employeeName fields
are JsVal. -/
structure Conversation where
  id : Option String
  participantNames : JsVal
  employeeName : JsVal
  lastMessage : Option String
  lastMessageTimestamp : TsVal
  lastMessageSenderId : Option String
deriving Repr

/-- A message document within a conversation. -/
structure Message where
  id : String
  senderId : String
  text : String
  timestamp : TsVal
deriving Repr, DecidableEq

/-- Modelled from the spec: the config/constants module of each app (not
under src/) exports an HR_USER constant with a well-known identifier and
display name for the primary (HR) role; section 4.2 of the spec calls it a
fixed well-known primary-role constant identifier.  It is kept abstract as
a parameter so every theorem holds for any value of the constant. -/
structure HRUser where
  ID : String
  NAME : String

/-- Modelled from the spec: the utils/helpers module of each app (not under
src/) exports truncateString; section 4.3 of the spec: truncate to N
characters and append an ellipsis marker only if truncation actually
occurred. -/
def truncateString (s : String) (n : Nat) : String :=
  if s.length > n then strTake s n ++ "..." else s

/-! ## Shared roster-parsing block (dashboard)

The following block appears verbatim four times in the dashboard sources:
in isHRMessage and in employeeList of the useChat hook, in
getHRNameFromParticipantNames of the chat service, and in
getHRNameFromParticipantNames of the MessageBubble component.  It turns the
raw participantNames field into a working array: a one-element array whose
only element is a bracket-initial string is JSON-parsed (falling back to
the original array), any other array is used as is, and a bracket-initial
string is JSON-parsed (falling back to a one-element array holding the raw
string).  Anything else yields the initial empty array. -/
def parsePNamesLen1 (participantNames : JsVal) : List JsVal :=
  match participantNames with
  | JsVal.vArr elems =>
    match elems with
    | [JsVal.vStr s] =>
      if jsStartsWith s "[" then
        match jsonParse s with
        | some (JsVal.vArr parsed) => parsed
        | some _ => elems
        | none => elems
      else elems
    | _ => elems
  | JsVal.vStr s =>
    if jsStartsWith s "[" then
      match jsonParse s with
      | some (JsVal.vArr parsed) => parsed
      | some _ => []
      | none => [JsVal.vStr s]
    else []
  | _ => []

/-- isHRMessage from the dashboard useChat hook: the (HR) substring check
comes first, then the HR_USER.ID constant, then the exact comparison
against the trimmed first roster entry. -/
def isHRMessage (hr : HRUser) (senderId : String) (participantNames : JsVal) : Bool :=
  if senderId ≠ "" ∧ strIncludes senderId "(HR)" then true
  else if senderId = hr.ID then true
  else if participantNames.truthy then
    let namesArray := parsePNamesLen1 participantNames
    match namesArray with
    | JsVal.vStr first :: _ => senderId = strTrim first
    | _ => false
  else false

/-- getHRNameFromParticipantNames from the dashboard chat service: first
working-roster entry, trimmed, when it is a string; null otherwise. -/
def getHRNameFromParticipantNames (participantNames : JsVal) : Option String :=
  if !participantNames.truthy then none
  else
    match parsePNamesLen1 participantNames with
    | JsVal.vStr first :: _ => some (strTrim first)
    | _ => none

/-- JavaScript word.charAt(0).toUpperCase() + word.slice(1). -/
def capFirst (word : String) : String :=
  match word.toList with
  | [] => ""
  | c :: rest => String.mk (c.toUpper :: rest)

/-- getEmployeeNameFromId from the dashboard chat service: ids following
the emp_ slug convention are split on underscores, each token gets its
first character upper-cased, and the tokens are joined with spaces. -/
def getEmployeeNameFromId (employeeId : Option String) : String :=
  match employeeId with
  | none => ""
  | some s =>
    if s = "" then ""
    else if !jsStartsWith s "emp_" then ""
    else joinWith " " (((splitOnChar '_' (s.toList.drop 4)).map String.mk).map capFirst)

/-! ## Mobile service call sites (firestoreService.js) -/

/-- First element of a nonempty array, else null. -/
def headOrNull : List JsVal → JsVal
  | v :: _ => v
  | [] => JsVal.vNull

/-- getHRNameFromParticipantNames from the mobile firestoreService hook: it
receives the conversation object, parses its participantNames (an array of
any length whose bracket-initial first string element is JSON-parsed with
fallback to the original array, or a bracket-initial string whose parse
failure returns null), and returns the raw, untrimmed first entry of the
working array, or null. -/
def getHRNameFromPNMobile (conversation : Option Conversation) : JsVal :=
  match conversation with
  | none => JsVal.vNull
  | some conv =>
    if !conv.participantNames.truthy then JsVal.vNull
    else
      match conv.participantNames with
      | JsVal.vArr (first :: rest) =>
        let namesArray :=
          match first with
          | JsVal.vStr fs =>
            if jsStartsWith fs "[" then
              match jsonParse fs with
              | some (JsVal.vArr parsed) => parsed
              | some _ => first :: rest
              | none => first :: rest
            else first :: rest
          | _ => first :: rest
        headOrNull namesArray
      | JsVal.vStr s =>
        if jsStartsWith s "[" then
          match jsonParse s with
          | some (JsVal.vArr parsed) => headOrNull parsed
          | some _ => headOrNull []
          | none => JsVal.vNull
        else headOrNull []
      | _ => headOrNull []

/-- isHRMessage from the mobile firestoreService hook: when the
conversation roster resolves to a truthy first name, that exact comparison
alone decides; the HR_USER constants are consulted only as a fallback. -/
def isHRMessageMobile (hr : HRUser) (conversation : Option Conversation)
    (senderId : String) : Bool :=
  match conversation with
  | some conv =>
    if (getHRNameFromPNMobile (some conv)).truthy then
      jsStrEq (getHRNameFromPNMobile (some conv)) senderId
    else senderId = hr.NAME ∨ senderId = hr.ID
  | none => senderId = hr.NAME ∨ senderId = hr.ID

/-! ## Mobile hooks call site (useConversations, part_001) -/

/-- getHRNameFromConversation from the mobile conversations hook: returns
the first working-roster entry for display, or the empty-string sentinel
when the conversation or its roster is missing or unparseable. -/
def getHRNameFromConversation (conversation : Option Conversation) : JsVal :=
  match conversation with
  | none => JsVal.vStr ""
  | some conv =>
    if !conv.participantNames.truthy then JsVal.vStr ""
    else
      let fromArr : Option JsVal :=
        match conv.participantNames with
        | JsVal.vArr (first :: _) =>
          match first with
          | JsVal.vStr fs =>
            if jsStartsWith fs "[" then
              match jsonParse fs with
              | some (JsVal.vArr (p :: _)) => some p
              | _ => some (JsVal.vStr fs)
            else some (JsVal.vStr fs)
          | _ => none
        | _ => none
      match fromArr with
      | some v => v
      | none =>
        match conv.participantNames with
        | JsVal.vStr s =>
          if jsStartsWith s "[" then
            match jsonParse s with
            | some (JsVal.vArr (p :: _)) => p
            | _ => JsVal.vStr ""
          else JsVal.vStr ""
        | _ => JsVal.vStr ""

/-! ## Mobile ConversationItem component -/

/-- getConversationName from the mobile ConversationItem: prefers a clean
employeeName field, then the first working-roster entry, then a raw string
employeeName, then the literal Conversation placeholder.  Extracted roster
entries are returned raw, without trimming. -/
def getConversationName (conversation : Conversation) : JsVal :=
  let enClean : Bool :=
    match conversation.employeeName with
    | JsVal.vStr en => en ≠ "" ∧ !jsStartsWith en "[" ∧ !strIncludes en "\", \""
    | _ => false
  if enClean then conversation.employeeName
  else
    let fromPN : Option JsVal :=
      if !conversation.participantNames.truthy then none
      else
        match conversation.participantNames with
        | JsVal.vArr (first :: _) =>
          match first with
          | JsVal.vStr fs =>
            if jsStartsWith fs "[" then
              match jsonParse fs with
              | some (JsVal.vArr (p :: _)) => some p
              | _ => some (JsVal.vStr fs)
            else some (JsVal.vStr fs)
          | _ => none
        | JsVal.vStr s =>
          if jsStartsWith s "[" then
            match jsonParse s with
            | some (JsVal.vArr (p :: _)) => some p
            | _ => none
          else none
        | _ => none
    match fromPN with
    | some v => v
    | none =>
      match conversation.employeeName with
      | JsVal.vStr en => JsVal.vStr en
      | _ => JsVal.vStr "Conversation"

/-- The roster-parsing block of getLastMessagePrefix in the mobile
ConversationItem: an array of any length whose bracket-initial first string
element is JSON-parsed (falling back to the original array), or a
bracket-initial string JSON-parsed into an array (staying empty on failure
or a non-array result). -/
def parsePNamesCI (participantNames : JsVal) : List JsVal :=
  match participantNames with
  | JsVal.vArr (first :: rest) =>
    match first with
    | JsVal.vStr fs =>
      if jsStartsWith fs "[" then
        match jsonParse fs with
        | some (JsVal.vArr parsed) => parsed
        | some _ => first :: rest
        | none => first :: rest
      else first :: rest
    | _ => first :: rest
  | JsVal.vStr s =>
    if jsStartsWith s "[" then
      match jsonParse s with
      | some (JsVal.vArr parsed) => parsed
      | _ => []
    else []
  | _ => []

/-- getLastMessagePrefix from the mobile ConversationItem: from the
counterpart app, a last message sent by the second roster entry is prefixed
You, one sent by the first roster entry is prefixed with that (truncated)
name, anything else gets no prefix. -/
def getLastMessagePrefixCI (lastMessageSenderId : Option String)
    (participantNames : JsVal) : String :=
  match lastMessageSenderId with
  | none => ""
  | some sid =>
    if sid = "" then ""
    else if !participantNames.truthy then ""
    else
      match parsePNamesCI participantNames with
      | hrName :: employeeName :: _ =>
        if jsStrEq employeeName sid then "You: "
        else if jsStrEq hrName sid then truncateString sid 15 ++ ": "
        else ""
      | _ => ""

/-! ## Dashboard EmployeeList component -/

/-- The roster-parsing block of getLastMessagePrefix in the dashboard
EmployeeList: same scheme as the mobile ConversationItem block. -/
def parsePNamesEL (participantNames : JsVal) : List JsVal :=
  match participantNames with
  | JsVal.vArr elems =>
    match elems with
    | JsVal.vStr fs :: _ =>
      if jsStartsWith fs "[" then
        match jsonParse fs with
        | some (JsVal.vArr parsed) => parsed
        | some _ => elems
        | none => elems
      else elems
    | _ => elems
  | JsVal.vStr s =>
    if jsStartsWith s "[" then
      match jsonParse s with
      | some (JsVal.vArr parsed) => parsed
      | _ => []
    else []
  | _ => []

/-- getLastMessagePrefix from the dashboard EmployeeList: from the staff
app, a last message sent by the first roster entry is prefixed You, one
sent by the second roster entry is prefixed with that (truncated) name,
anything else gets no prefix. -/
def getLastMessagePrefixEL (lastMessageSenderId : Option String)
    (participantNames : JsVal) : String :=
  match lastMessageSenderId with
  | none => ""
  | some sid =>
    if sid = "" then ""
    else if !participantNames.truthy then ""
    else if jsLength participantNames = 0 then ""
    else
      match parsePNamesEL participantNames with
      | hrName :: employeeName :: _ =>
        if jsStrEq hrName sid then "You: "
        else if jsStrEq employeeName sid then truncateString sid 15 ++ ": "
        else ""
      | _ => ""

/-! ## Name heuristics of the dashboard employeeList (useChat hook)

The employeeList fallback chain scrapes a candidate employee name out of
the last message text with two regular expressions; they are embedded here
directly.  A word character is letter, digit or underscore, matching the
regex word-boundary semantics. -/

def isWordChar (c : Char) : Bool :=
  c.isAlpha || c.isDigit || c = '_'

def isUpperAZ (c : Char) : Bool := 'A' ≤ c ∧ c ≤ 'Z'

def isLowerAZ (c : Char) : Bool := 'a' ≤ c ∧ c ≤ 'z'

/-- True when the position right before this suffix is a word boundary
coming out of a word character, i.e. the suffix starts with a non-word
character or is the end of the input. -/
def boundaryOk : List Char → Bool
  | [] => true
  | c :: _ => !isWordChar c

/-- The anchored capitalized-name pattern: an upper-case letter, one or
more lower-case letters, optionally whitespace and a second such word.
Used (anchored, no boundary assertions) on the text after a greeting. -/
def matchNameAnchored : List Char → Option String
  | [] => none
  | c :: rest =>
    if isUpperAZ c then
      let lows := rest.takeWhile isLowerAZ
      let rest1 := rest.dropWhile isLowerAZ
      if lows.isEmpty then none
      else
        let ws := rest1.takeWhile Char.isWhitespace
        let rest2 := rest1.dropWhile Char.isWhitespace
        if ws.isEmpty then some (String.mk (c :: lows))
        else
          match rest2 with
          | d :: rest3 =>
            if isUpperAZ d then
              let lows2 := rest3.takeWhile isLowerAZ
              if lows2.isEmpty then some (String.mk (c :: lows))
              else some (String.mk (c :: lows ++ ws ++ d :: lows2))
            else some (String.mk (c :: lows))
          | [] => some (String.mk (c :: lows))
    else none

/-- One attempt of the word-boundary-delimited capitalized-name pattern at
the current position: the previous character must not be a word character,
and the match must end at a word boundary.  When the two-word extension
fails its final boundary the regex engine backtracks to the one-word match,
whose boundary (the following whitespace) always holds. -/
def tryMatchName (prevIsWord : Bool) (cs : List Char) : Option (String × List Char) :=
  if prevIsWord then none
  else
    match cs with
    | [] => none
    | c :: rest =>
      if isUpperAZ c then
        let lows := rest.takeWhile isLowerAZ
        let rest1 := rest.dropWhile isLowerAZ
        if lows.isEmpty then none
        else
          let ws := rest1.takeWhile Char.isWhitespace
          let rest2 := rest1.dropWhile Char.isWhitespace
          if ws.isEmpty then
            if boundaryOk rest1 then some (String.mk (c :: lows), rest1) else none
          else
            let fallback := some (String.mk (c :: lows), rest1)
            match rest2 with
            | d :: rest3 =>
              if isUpperAZ d then
                let lows2 := rest3.takeWhile isLowerAZ
                let rest4 := rest3.dropWhile isLowerAZ
                if !lows2.isEmpty && boundaryOk rest4 then
                  some (String.mk (c :: lows ++ ws ++ d :: lows2), rest4)
                else fallback
              else fallback
            | [] => fallback
      else none

/-- The global scan of String.prototype.match with the g flag: collect
successive non-overlapping matches left to right.  Fuel bounds the scan;
the input length is always enough since every step consumes a character. -/
def scanNames : Nat → Bool → List Char → List String
  | 0, _, _ => []
  | Nat.succ fuel, prevIsWord, cs =>
    match cs with
    | [] => []
    | c :: rest =>
      match tryMatchName prevIsWord cs with
      | some (m, rest2) => m :: scanNames fuel true rest2
      | none => scanNames fuel (isWordChar c) rest

/-- JavaScript String.prototype.indexOf on the character level: index of the
first occurrence of pat, if any. -/
def idxOfSub (hay pat : List Char) : Option Nat :=
  match hay with
  | [] => if pat.isEmpty then some 0 else none
  | _ :: rest =>
    if pat.isPrefixOf hay then some 0
    else (idxOfSub rest pat).map (· + 1)

/-- JavaScript String.prototype.toLowerCase, on the ASCII letters the
heuristic deals with. -/
def strToLower (s : String) : String :=
  String.mk (s.toList.map Char.toLower)

/-- One iteration of the greeting loop of employeeList: find the greeting
in the lower-cased message, apply the anchored name pattern to the trimmed
text after it (in the original casing), and accept the candidate unless it
is the HR name or carries the (HR) marker. -/
def greetingCandidate (hr : HRUser) (lastMessage : String) (greeting : String) :
    Option String :=
  match idxOfSub (strToLower lastMessage).toList greeting.toList with
  | none => none
  | some index =>
    let afterGreeting := strTrim (String.mk (lastMessage.toList.drop (index + greeting.length)))
    match matchNameAnchored afterGreeting.toList with
    | some nm =>
      if nm ≠ "" ∧ nm ≠ hr.NAME ∧ !strIncludes nm "(HR)" then some nm else none
    | none => none

/-- The greeting-token pass of the last-message heuristic: first greeting
whose candidate survives the HR filters wins. -/
def greetingName (hr : HRUser) (lastMessage : String) : Option String :=
  ["hello", "hi", "hey", "dear"].findSome? (greetingCandidate hr lastMessage)

/-- The full last-message heuristic of employeeList: greeting pass first,
then the first capitalized word anywhere that is not the HR name. -/
def lastMessageName (hr : HRUser) (lastMessage : String) : String :=
  match greetingName hr lastMessage with
  | some n => strTrim n
  | none =>
    let allNames := scanNames lastMessage.toList.length false lastMessage.toList
    match allNames.find? (fun n => n ≠ hr.NAME && !strIncludes n "(HR)") with
    | some n => strTrim n
    | none => ""

/-! ## The employeeList directory derivation (useChat hook) -/

/-- A directory entry produced by employeeList. -/
structure DirectoryEntry where
  id : Option String
  name : String
  lastMessage : String
  lastMessageTimestamp : TsVal
  lastMessageSenderId : Option String
  participantNames : JsVal
  unreadCount : Nat
deriving Repr

/-- Truthiness of an optional string field. -/
def optStrTruthy : Option String → Bool
  | some s => s ≠ ""
  | none => false

/-- The roster step of employeeList: filter the working roster for nonempty
string entries that are neither the HR constant name nor (HR)-marked and
take the first, falling back to the trimmed second entry. -/
def rosterEmployeeName (hr : HRUser) (participantNames : JsVal) : String :=
  if participantNames.truthy then
    let namesArray := parsePNamesLen1 participantNames
    if namesArray.length > 0 then
      let employeeNames := namesArray.filterMap (fun name =>
        match name with
        | JsVal.vStr s =>
          if !s.isEmpty && (s ≠ hr.NAME && !strIncludes s "(HR)") then some s else none
        | _ => none)
      match employeeNames with
      | first :: _ => strTrim first
      | [] =>
        if namesArray.length ≥ 2 then
          match namesArray.get? 1 with
          | some (JsVal.vStr s) => if s = "" then "" else strTrim s
          | _ => ""
        else ""
    else ""
  else ""

/-- The map body of employeeList: the fallback chain for the display name
(roster, id slug, last-message heuristic, placeholder from the id) followed
by the entry record assembly.  The conversion of a non-string name via the
String constructor cannot fire in the model, where every branch already
produces a string. -/
def employeeEntry (hr : HRUser) (conv : Conversation) : DirectoryEntry :=
  let employeeName1 := rosterEmployeeName hr conv.participantNames
  let employeeName2 :=
    if employeeName1 = "" then getEmployeeNameFromId conv.id else employeeName1
  let employeeName3 :=
    if employeeName2 = "" ∧ optStrTruthy conv.lastMessage then
      lastMessageName hr (conv.lastMessage.getD "")
    else employeeName2
  let employeeName4 :=
    if employeeName3 = "" ∨ strTrim employeeName3 = "" then
      match conv.id with
      | some i => if i ≠ "" then "Conversation " ++ strTake i 8 else "Conversation"
      | none => "Conversation"
    else employeeName3
  { id := conv.id
    name := strTrim employeeName4
    lastMessage := conv.lastMessage.getD ""
    lastMessageTimestamp := conv.lastMessageTimestamp
    lastMessageSenderId :=
      match conv.lastMessageSenderId with
      | some s => if s = "" then none else some s
      | none => none
    participantNames :=
      if conv.participantNames.truthy then conv.participantNames else JsVal.vArr []
    unreadCount := 0 }

/-- employeeList from the dashboard useChat hook: one entry per input
conversation, never filtered. -/
def employeeList (hr : HRUser) (conversations : List Conversation) :
    List DirectoryEntry :=
  conversations.map (employeeEntry hr)

/-! ## Array.prototype.sort model

A stable insertion sort parameterized by a numeric comparator, matching
the sortedness and stability guarantees of Array.prototype.sort under a
consistent comparator. -/

/-- Insert x after every element the comparator places at or before it. -/
def insertCmp (cmp : α → α → Int) (x : α) : List α → List α
  | [] => [x]
  | y :: ys => if cmp y x ≤ 0 then y :: insertCmp cmp x ys else x :: y :: ys

/-- Stable sort by a numeric comparator. -/
def jsSort (cmp : α → α → Int) (l : List α) : List α :=
  l.foldl (fun acc x => insertCmp cmp x acc) []

/-! ## Conversation-list subscription sort

The sort callback of subscribeConversations, identical in the dashboard
chat service and the mobile chatService: descending by toMillis of
lastMessageTimestamp, where a field without a toMillis method contributes
the value 0. -/

/-- The sort key: toMillis when the field has it, 0 otherwise. -/
def convSortKey (c : Conversation) : Int :=
  match c.lastMessageTimestamp with
  | TsVal.fsT t => tsToMillis t
  | _ => 0

/-- The descending comparator timeB - timeA. -/
def convCmp (a b : Conversation) : Int := convSortKey b - convSortKey a

def sortConversations (conversations : List Conversation) : List Conversation :=
  jsSort convCmp conversations

/-! ## Dashboard sortedMessages (useChat hook) -/

/-- isValidTimestamp from the useChat hook: a falsy field is invalid; a
field with a seconds property is valid iff seconds is positive; otherwise a
field with toMillis is valid iff it yields a positive value; a Date is
valid when its time is a number; a plain number is valid iff positive. -/
def isValidTimestamp : TsVal → Bool
  | TsVal.missing => false
  | TsVal.fsT t => t.seconds > 0
  | TsVal.date _ => true
  | TsVal.num n => if n = 0 then false else n > 0
  | TsVal.placeholder => false

/-- getTimestampMs from the useChat hook: 0 for missing or invalid fields,
otherwise toMillis first, then the seconds/nanoseconds formula, then the
Date time, then the raw number. -/
def getTimestampMs (m : Message) : Int :=
  match m.timestamp with
  | TsVal.missing => 0
  | ts =>
    if !isValidTimestamp ts then 0
    else
      match ts with
      | TsVal.fsT t => tsToMillis t
      | TsVal.date ms => ms
      | TsVal.num n => n
      | _ => 0

/-- String comparison as a sort-comparator integer; models localeCompare
(at the code-point level) for the id tiebreak. -/
def strCmpInt (a b : String) : Int :=
  match compare a b with
  | Ordering.lt => -1
  | Ordering.eq => 0
  | Ordering.gt => 1

/-- The message comparator of sortedMessages: ascending by timestamp with
the document id as tiebreak. -/
def dashMsgCmp (a b : Message) : Int :=
  let timeA := getTimestampMs a
  let timeB := getTimestampMs b
  if timeA = timeB then strCmpInt a.id b.id else timeA - timeB

/-- sortedMessages from the useChat hook: drop every message whose
timestamp field is falsy or not a valid resolved timestamp, then sort. -/
def sortedMessages (messages : List Message) : List Message :=
  if messages.isEmpty then []
  else
    if (messages.filter
        (fun m => tsTruthy m.timestamp && isValidTimestamp m.timestamp)).isEmpty then []
    else
      jsSort dashMsgCmp
        (messages.filter
          (fun m => tsTruthy m.timestamp && isValidTimestamp m.timestamp))

/-! ## Mobile subscribeMessages pipeline (chatService.js) -/

/-- The validity filter of the mobile subscribeMessages callback: the
timestamp field must be truthy and expose toMillis, and the resulting
milliseconds must be nonzero, positive, below MAX_SAFE_INTEGER and at most
one hour ahead of the local clock (now). -/
def mobileValidMessage (now : Int) (m : Message) : Bool :=
  match m.timestamp with
  | TsVal.missing => false
  | TsVal.fsT t =>
    let millis := tsToMillis t
    if millis ≠ 0 ∧ millis > 0 ∧ millis < 9007199254740991 then
      if millis > now + 60 * 60 * 1000 then false else true
    else false
  | _ => false

/-- The millisecond value used by the dedup comparison and the final sort:
toMillis when present, 0 otherwise. -/
def msgTimeOr0 (m : Message) : Int :=
  match m.timestamp with
  | TsVal.fsT t => tsToMillis t
  | _ => 0

/-- Lookup in the insertion-ordered map. -/
def mapGet (k : String) : List (String × Message) → Option Message
  | [] => none
  | (k2, v) :: rest => if k2 = k then some v else mapGet k rest

/-- Map.prototype.set: replace in place, or append a new key. -/
def mapSet (k : String) (v : Message) : List (String × Message) →
    List (String × Message)
  | [] => [(k, v)]
  | (k2, v2) :: rest =>
    if k2 = k then (k, v) :: rest else (k2, v2) :: mapSet k v rest

/-- One step of the dedup forEach: keyed messages replace an existing entry
only when strictly newer; a message with a falsy id gets a fresh synthetic
key (the Math.random key of the source is modelled by the element index,
which is equally fresh). -/
def dedupStep (acc : List (String × Message)) (p : Nat × Message) :
    List (String × Message) :=
  let m := p.2
  if m.id ≠ "" then
    match mapGet m.id acc with
    | some existing =>
      if msgTimeOr0 m > msgTimeOr0 existing then mapSet m.id m acc else acc
    | none => mapSet m.id m acc
  else mapSet ("temp_" ++ toString p.1) m acc

def dedupGo (acc : List (String × Message)) : List (Nat × Message) →
    List (String × Message)
  | [] => acc
  | p :: rest => dedupGo (dedupStep acc p) rest

/-- The Map-based dedup of the mobile subscribeMessages callback, as the
list of kept values in insertion order. -/
def dedupMessages (msgs : List Message) : List Message :=
  (dedupGo [] msgs.enum).map Prod.snd

/-- The ascending final sort comparator of the mobile pipeline. -/
def mobileMsgCmp (a b : Message) : Int := msgTimeOr0 a - msgTimeOr0 b

/-- The full list transformation the mobile subscribeMessages callback
applies to each delivered snapshot before handing it to the UI: validity
filter, dedup by id, ascending sort. -/
def mobileMessagesOutput (now : Int) (msgs : List Message) : List Message :=
  jsSort mobileMsgCmp (dedupMessages (msgs.filter (mobileValidMessage now)))

/-! ## Theorems -/

/-- Claim C4: for the roster pair Sarah Connor (HR) / Alice Johnson with
lastMessageSenderId Alice Johnson, the staff dashboard conversation list
prefixes the last message with the counterpart name and a colon, while the
mobile counterpart app prefixes the same record with You. -/
theorem claim4_prefix_asymmetry :
    getLastMessagePrefixEL (some "Alice Johnson")
      (JsVal.vArr [JsVal.vStr "Sarah Connor (HR)", JsVal.vStr "Alice Johnson"]) =
        "Alice Johnson: " ∧
    getLastMessagePrefixCI (some "Alice Johnson")
      (JsVal.vArr [JsVal.vStr "Sarah Connor (HR)", JsVal.vStr "Alice Johnson"]) =
        "You: " := by
  constructor <;> rfl

/-- Claim C1, counterexample: in the dashboard useChat classifier the
legacy (HR)-substring check fires before any roster comparison.  For the
conversation whose roster resolves to the pair (Sarah Connor, Alice (HR)),
the sender Alice (HR) equals the roster secondary exactly, yet the
classifier reports the message as HR-sent (Primary) because the name
contains the (HR) marker; the claim demands Secondary. -/
theorem claim1_counterexample :
    parsePNamesLen1 (JsVal.vArr [JsVal.vStr "Sarah Connor", JsVal.vStr "Alice (HR)"]) =
      [JsVal.vStr "Sarah Connor", JsVal.vStr "Alice (HR)"] ∧
    isHRMessage ⟨"hr_manager", "Sarah Connor (HR)"⟩ "Alice (HR)"
      (JsVal.vArr [JsVal.vStr "Sarah Connor", JsVal.vStr "Alice (HR)"]) = true := by
  constructor <;> rfl

/-- Claim C1, amended: only the mobile firestoreService classifier tries
the roster before the legacy checks — when the roster first slot resolves
truthy, the exact comparison against it alone decides, so a senderId equal
to the roster secondary is classified counterpart-sent even when it carries
the (HR) marker.  In the dashboard useChat classifier the (HR)-substring
legacy check decides first, regardless of the roster. -/
theorem claim1_amended :
    (∀ (hr : HRUser) (conv : Conversation) (senderId A : String),
      getHRNameFromPNMobile (some conv) = JsVal.vStr A → A ≠ "" →
      isHRMessageMobile hr (some conv) senderId = decide (senderId = A)) ∧
    (∀ (hr : HRUser) (senderId : String) (participantNames : JsVal),
      senderId ≠ "" → strIncludes senderId "(HR)" = true →
      isHRMessage hr senderId participantNames = true) := by
  constructor
  · intro hr conv senderId A hname hA
    have ht : (JsVal.vStr A).truthy = true := by
      simp only [JsVal.truthy, Bool.not_eq_true']
      exact Bool.eq_false_iff.mpr (fun h => hA ((String.isEmpty_iff A).mp h))
    simp only [isHRMessageMobile, hname, ht, if_true]
    simp [jsStrEq, eq_comm]
  · intro hr senderId participantNames h1 h2
    unfold isHRMessage
    rw [if_pos ⟨h1, h2⟩]

/-- Claim C1, amended, witness at the concrete inputs: the mobile
classifier marks the (HR)-carrying secondary sender as counterpart-sent,
the dashboard classifier marks any (HR)-carrying sender as HR-sent. -/
theorem claim1_amended_witness :
    isHRMessageMobile ⟨"hr_manager", "Sarah Connor (HR)"⟩
      (some ⟨some "c1", JsVal.vArr [JsVal.vStr "Sarah Connor", JsVal.vStr "Alice (HR)"],
        JsVal.vUndef, none, TsVal.missing, none⟩) "Alice (HR)" = false ∧
    isHRMessage ⟨"hr_manager", "Sarah Connor (HR)"⟩ "Alice (HR)" JsVal.vUndef = true := by
  constructor
  · rw [claim1_amended.1 ⟨"hr_manager", "Sarah Connor (HR)"⟩
      ⟨some "c1", JsVal.vArr [JsVal.vStr "Sarah Connor", JsVal.vStr "Alice (HR)"],
        JsVal.vUndef, none, TsVal.missing, none⟩ "Alice (HR)" "Sarah Connor"
      rfl (by decide)]
    decide
  · exact claim1_amended.2 ⟨"hr_manager", "Sarah Connor (HR)"⟩ "Alice (HR)" JsVal.vUndef
      (by decide) (by rfl)

/-- Claim C7, counterexample: the mobile ConversationItem returns the first
roster entry raw for display; with a whitespace-padded first name the
displayed string is the untrimmed one, which differs from its trimmed
form. -/
theorem claim7_counterexample :
    getConversationName ⟨some "c1",
      JsVal.vArr [JsVal.vStr " Sarah Connor (HR) ", JsVal.vStr "Alice Johnson"],
      JsVal.vUndef, none, TsVal.missing, none⟩ =
        JsVal.vStr " Sarah Connor (HR) " ∧
    " Sarah Connor (HR) " ≠ strTrim " Sarah Connor (HR) " := by
  constructor
  · rfl
  · decide

/-- Claim C7, amended: trimming is applied where the source ends in an
explicit trim call — the dashboard chat-service extraction returns the
trimmed first entry and the dashboard useChat classifier compares the
senderId against the trimmed first entry — but the mobile ConversationItem
display path returns roster entries raw, without trimming. -/
theorem claim7_amended :
    (∀ (participantNames : JsVal) (a : String) (rest : List JsVal),
      participantNames.truthy = true →
      parsePNamesLen1 participantNames = JsVal.vStr a :: rest →
      getHRNameFromParticipantNames participantNames = some (strTrim a)) ∧
    (∀ (hr : HRUser) (senderId : String) (participantNames : JsVal)
        (a : String) (rest : List JsVal),
      participantNames.truthy = true →
      parsePNamesLen1 participantNames = JsVal.vStr a :: rest →
      strIncludes senderId "(HR)" = false → senderId ≠ hr.ID →
      isHRMessage hr senderId participantNames = decide (senderId = strTrim a)) ∧
    (∀ (c : Conversation) (a : String) (rest : List JsVal),
      c.employeeName = JsVal.vUndef →
      c.participantNames = JsVal.vArr (JsVal.vStr a :: rest) →
      jsStartsWith a "[" = false →
      getConversationName c = JsVal.vStr a) := by
  refine ⟨?_, ?_, ?_⟩
  · intro pn a rest htruthy hparse
    unfold getHRNameFromParticipantNames
    rw [htruthy, hparse]
    rfl
  · intro hr senderId pn a rest htruthy hparse hsub hid
    unfold isHRMessage
    rw [if_neg (by simp [hsub]), if_neg hid, if_pos htruthy, hparse]
  · intro c a rest hen hpn hbr
    obtain ⟨cid, cpn, cen, clm, cts, csid⟩ := c
    simp only at hen hpn
    subst hen hpn
    simp [getConversationName, JsVal.truthy, hbr]

/-- Claim C7, amended, witness at concrete inputs with a padded roster
first entry. -/
theorem claim7_amended_witness :
    getHRNameFromParticipantNames
      (JsVal.vArr [JsVal.vStr " Sarah Connor (HR) ", JsVal.vStr "Alice Johnson"]) =
        some "Sarah Connor (HR)" ∧
    isHRMessage ⟨"hr_manager", "Sarah Connor"⟩ "Sarah Madison"
      (JsVal.vArr [JsVal.vStr " Sarah Madison ", JsVal.vStr "Alice Johnson"]) =
        true ∧
    getConversationName ⟨some "c1",
      JsVal.vArr [JsVal.vStr " Sarah Connor (HR) ", JsVal.vStr "Alice Johnson"],
      JsVal.vUndef, none, TsVal.missing, none⟩ =
        JsVal.vStr " Sarah Connor (HR) " := by
  refine ⟨?_, ?_, ?_⟩
  · rw [claim7_amended.1
      (JsVal.vArr [JsVal.vStr " Sarah Connor (HR) ", JsVal.vStr "Alice Johnson"])
      " Sarah Connor (HR) " [JsVal.vStr "Alice Johnson"] (by rfl) (by rfl)]
    rfl
  · rw [claim7_amended.2.1 ⟨"hr_manager", "Sarah Connor"⟩ "Sarah Madison"
      (JsVal.vArr [JsVal.vStr " Sarah Madison ", JsVal.vStr "Alice Johnson"])
      " Sarah Madison " [JsVal.vStr "Alice Johnson"]
      (by rfl) (by rfl) (by decide) (by decide)]
    decide
  · exact claim7_amended.2.2 ⟨some "c1",
      JsVal.vArr [JsVal.vStr " Sarah Connor (HR) ", JsVal.vStr "Alice Johnson"],
      JsVal.vUndef, none, TsVal.missing, none⟩
      " Sarah Connor (HR) " [JsVal.vStr "Alice Johnson"] rfl rfl (by rfl)

/-- Claim C9: when the roster is unusable, a conversation id following the
emp_ slug convention yields the title-cased display name — emp_jane_doe
becomes Jane Doe — and this id-based step is tried before the last-message
text heuristic: the produced entry name is Jane Doe no matter what the
lastMessage field holds. -/
theorem claim9_slug_display_name :
    getEmployeeNameFromId (some "emp_jane_doe") = "Jane Doe" ∧
    (∀ (hr : HRUser) (conv : Conversation),
      conv.participantNames = JsVal.vUndef →
      conv.id = some "emp_jane_doe" →
      (employeeEntry hr conv).name = "Jane Doe") := by
  constructor
  · rfl
  · intro hr conv hpn hid
    unfold employeeEntry
    rw [hpn, hid]
    rfl

/-- Claim C9, witness: a conversation with an unusable roster, the slug id
and a greeting-bearing last message still takes its name from the id. -/
theorem claim9_witness :
    (employeeEntry ⟨"hr_manager", "Sarah Connor (HR)"⟩
      ⟨some "emp_jane_doe", JsVal.vUndef, JsVal.vUndef,
        some "Hello Bob, please come by", TsVal.missing, none⟩).name = "Jane Doe" :=
  claim9_slug_display_name.2 ⟨"hr_manager", "Sarah Connor (HR)"⟩
    ⟨some "emp_jane_doe", JsVal.vUndef, JsVal.vUndef,
      some "Hello Bob, please come by", TsVal.missing, none⟩ rfl rfl

/-- Claim C5: the directory derivation produces exactly one entry per input
conversation, and a conversation whose name resolution fails at every step
still appears, carrying the placeholder built from the first 8 characters
of its id, or the bare Conversation label when there is no usable id. -/
theorem claim5_directory_total :
    (∀ (hr : HRUser) (conversations : List Conversation),
      (employeeList hr conversations).length = conversations.length) ∧
    (∀ (hr : HRUser) (conv : Conversation),
      conv.participantNames = JsVal.vUndef →
      getEmployeeNameFromId conv.id = "" →
      optStrTruthy conv.lastMessage = false →
      (employeeEntry hr conv).name =
        strTrim (match conv.id with
          | some i => if i ≠ "" then "Conversation " ++ strTake i 8 else "Conversation"
          | none => "Conversation")) := by
  constructor
  · intro hr conversations
    unfold employeeList
    exact List.length_map conversations (employeeEntry hr)
  · intro hr conv hpn hid hlm
    unfold employeeEntry
    rw [hpn, hid]
    simp only [rosterEmployeeName, JsVal.truthy, Bool.false_eq_true, if_false,
      if_pos rfl, hlm, Bool.false_eq_true, and_false, if_false]
    rfl

/-- Claim C5, witness: an entirely unresolvable conversation still yields a
directory entry, named from its id prefix; the list keeps its length. -/
theorem claim5_witness :
    (employeeList ⟨"hr_manager", "Sarah Connor (HR)"⟩
      [⟨some "abcdefghij", JsVal.vUndef, JsVal.vUndef, none, TsVal.missing, none⟩]).length = 1 ∧
    (employeeEntry ⟨"hr_manager", "Sarah Connor (HR)"⟩
      ⟨some "abcdefghij", JsVal.vUndef, JsVal.vUndef, none, TsVal.missing, none⟩).name =
      "Conversation abcdefgh" := by
  constructor
  · exact claim5_directory_total.1 ⟨"hr_manager", "Sarah Connor (HR)"⟩
      [⟨some "abcdefghij", JsVal.vUndef, JsVal.vUndef, none, TsVal.missing, none⟩]
  · rw [claim5_directory_total.2 ⟨"hr_manager", "Sarah Connor (HR)"⟩
      ⟨some "abcdefghij", JsVal.vUndef, JsVal.vUndef, none, TsVal.missing, none⟩
      rfl rfl rfl]
    rfl

/-- Claim C2: the three physical encodings of a roster pair — the proper
two-element array, the single JSON-encoded string, and the array whose sole
element is that JSON-encoded string — normalize identically at the cited
call sites: the shared dashboard parsing block yields the pair itself, the
chat-service extraction yields the trimmed primary, and the mobile
conversation title is the primary. -/
theorem claim2_encoding_invariance (A B s : String)
    (hs : jsonParse s = some (JsVal.vArr [JsVal.vStr A, JsVal.vStr B]))
    (hsb : jsStartsWith s "[" = true)
    (hA : jsStartsWith A "[" = false) :
    (parsePNamesLen1 (JsVal.vArr [JsVal.vStr A, JsVal.vStr B]) =
        [JsVal.vStr A, JsVal.vStr B] ∧
     parsePNamesLen1 (JsVal.vStr s) = [JsVal.vStr A, JsVal.vStr B] ∧
     parsePNamesLen1 (JsVal.vArr [JsVal.vStr s]) = [JsVal.vStr A, JsVal.vStr B]) ∧
    (getHRNameFromParticipantNames (JsVal.vArr [JsVal.vStr A, JsVal.vStr B]) =
        some (strTrim A) ∧
     getHRNameFromParticipantNames (JsVal.vStr s) = some (strTrim A) ∧
     getHRNameFromParticipantNames (JsVal.vArr [JsVal.vStr s]) = some (strTrim A)) ∧
    (∀ c : Conversation, c.employeeName = JsVal.vUndef →
      c.participantNames = JsVal.vArr [JsVal.vStr A, JsVal.vStr B] ∨
      c.participantNames = JsVal.vStr s ∨
      c.participantNames = JsVal.vArr [JsVal.vStr s] →
      getConversationName c = JsVal.vStr A) := by
  have hsne : s ≠ "" := by
    intro h
    rw [h] at hsb
    exact Bool.false_ne_true hsb
  have hie : s.isEmpty = false :=
    Bool.eq_false_iff.mpr (fun h => hsne ((String.isEmpty_iff s).mp h))
  have hstruthy : (JsVal.vStr s).truthy = true := by
    simp only [JsVal.truthy, Bool.not_eq_true']
    exact hie
  have hp1 : parsePNamesLen1 (JsVal.vArr [JsVal.vStr A, JsVal.vStr B]) =
      [JsVal.vStr A, JsVal.vStr B] := rfl
  have hp2 : parsePNamesLen1 (JsVal.vStr s) = [JsVal.vStr A, JsVal.vStr B] := by
    simp only [parsePNamesLen1, hsb, if_true, hs]
  have hp3 : parsePNamesLen1 (JsVal.vArr [JsVal.vStr s]) =
      [JsVal.vStr A, JsVal.vStr B] := by
    simp only [parsePNamesLen1, hsb, if_true, hs]
  refine ⟨⟨hp1, hp2, hp3⟩, ⟨?_, ?_, ?_⟩, ?_⟩
  · unfold getHRNameFromParticipantNames
    rw [hp1]
    rfl
  · unfold getHRNameFromParticipantNames
    rw [hstruthy, hp2]
    rfl
  · unfold getHRNameFromParticipantNames
    rw [hp3]
    rfl
  · intro c hen hpn
    obtain ⟨cid, cpn, cen, clm, cts, csid⟩ := c
    simp only at hen hpn
    subst hen
    rcases hpn with h | h | h <;> subst h
    · simp [getConversationName, JsVal.truthy, hA]
    · simp [getConversationName, JsVal.truthy, hie, hsb, hs]
    · simp [getConversationName, JsVal.truthy, hsb, hs]

/-- Claim C2, witness at the concrete pair Sarah Connor (HR) and Alice
Johnson with its standard JSON encoding. -/
theorem claim2_witness :
    parsePNamesLen1 (JsVal.vStr "[\"Sarah Connor (HR)\", \"Alice Johnson\"]") =
      [JsVal.vStr "Sarah Connor (HR)", JsVal.vStr "Alice Johnson"] ∧
    getHRNameFromParticipantNames
      (JsVal.vArr [JsVal.vStr "[\"Sarah Connor (HR)\", \"Alice Johnson\"]"]) =
      some "Sarah Connor (HR)" := by
  have h := claim2_encoding_invariance "Sarah Connor (HR)" "Alice Johnson"
    "[\"Sarah Connor (HR)\", \"Alice Johnson\"]" (by rfl) (by rfl) (by rfl)
  refine ⟨h.1.2.1, ?_⟩
  rw [h.2.1.2.2]
  rfl

/-- Claim C3: roster normalization never throws.  The mobile conversations
hook returns the empty-string sentinel for a missing conversation, for a
missing roster field and for a string roster that does not parse to a
nonempty JSON array; the chat-service extraction returns null for a
missing roster; the mobile ConversationItem degrades such a parse failure
to its next fallback, the literal Conversation placeholder. -/
theorem claim3_parse_failure_sentinels :
    getHRNameFromConversation none = JsVal.vStr "" ∧
    (∀ c : Conversation, c.participantNames = JsVal.vUndef →
      getHRNameFromConversation (some c) = JsVal.vStr "") ∧
    (∀ c : Conversation, c.participantNames = JsVal.vNull →
      getHRNameFromConversation (some c) = JsVal.vStr "") ∧
    (getHRNameFromParticipantNames JsVal.vUndef = none ∧
     getHRNameFromParticipantNames JsVal.vNull = none) ∧
    (∀ (c : Conversation) (s : String), c.participantNames = JsVal.vStr s →
      (∀ l, jsonParse s = some (JsVal.vArr l) → l = []) →
      getHRNameFromConversation (some c) = JsVal.vStr "") ∧
    (∀ (c : Conversation) (s : String), c.employeeName = JsVal.vUndef →
      c.participantNames = JsVal.vStr s →
      (∀ l, jsonParse s = some (JsVal.vArr l) → l = []) →
      getConversationName c = JsVal.vStr "Conversation") := by
  refine ⟨rfl, ?_, ?_, ⟨rfl, rfl⟩, ?_, ?_⟩
  · intro c h
    obtain ⟨cid, cpn, cen, clm, cts, csid⟩ := c
    simp only at h
    subst h
    rfl
  · intro c h
    obtain ⟨cid, cpn, cen, clm, cts, csid⟩ := c
    simp only at h
    subst h
    rfl
  · intro c s hpn hno
    obtain ⟨cid, cpn, cen, clm, cts, csid⟩ := c
    simp only at hpn
    subst hpn
    rcases hb : s.isEmpty with _ | _
    · rcases hbr : jsStartsWith s "[" with _ | _
      · simp [getHRNameFromConversation, JsVal.truthy, hb, hbr]
      · rcases hj : jsonParse s with _ | v
        · simp [getHRNameFromConversation, JsVal.truthy, hb, hbr, hj]
        · rcases v with _ | _ | t | l
          · simp [getHRNameFromConversation, JsVal.truthy, hb, hbr, hj]
          · simp [getHRNameFromConversation, JsVal.truthy, hb, hbr, hj]
          · simp [getHRNameFromConversation, JsVal.truthy, hb, hbr, hj]
          · rcases l with _ | ⟨p, rest⟩
            · simp [getHRNameFromConversation, JsVal.truthy, hb, hbr, hj]
            · exact absurd (hno (p :: rest) hj) (by simp)
    · have hs0 : s = "" := (String.isEmpty_iff s).mp hb
      subst hs0
      rfl
  · intro c s hen hpn hno
    obtain ⟨cid, cpn, cen, clm, cts, csid⟩ := c
    simp only at hen hpn
    subst hen hpn
    rcases hb : s.isEmpty with _ | _
    · rcases hbr : jsStartsWith s "[" with _ | _
      · simp [getConversationName, JsVal.truthy, hb, hbr]
      · rcases hj : jsonParse s with _ | v
        · simp [getConversationName, JsVal.truthy, hb, hbr, hj]
        · rcases v with _ | _ | t | l
          · simp [getConversationName, JsVal.truthy, hb, hbr, hj]
          · simp [getConversationName, JsVal.truthy, hb, hbr, hj]
          · simp [getConversationName, JsVal.truthy, hb, hbr, hj]
          · rcases l with _ | ⟨p, rest⟩
            · simp [getConversationName, JsVal.truthy, hb, hbr, hj]
            · exact absurd (hno (p :: rest) hj) (by simp)
    · have hs0 : s = "" := (String.isEmpty_iff s).mp hb
      subst hs0
      rfl

/-- Claim C3, witness: the concrete non-JSON roster strings produce the
sentinels and the placeholder, and a missing roster produces the null
sentinel at the chat service. -/
theorem claim3_witness :
    getHRNameFromConversation
      (some ⟨some "c1", JsVal.vStr "not json[", JsVal.vUndef, none, TsVal.missing, none⟩) =
      JsVal.vStr "" ∧
    getConversationName
      ⟨some "c1", JsVal.vStr "[not json", JsVal.vUndef, none, TsVal.missing, none⟩ =
      JsVal.vStr "Conversation" := by
  constructor
  · exact claim3_parse_failure_sentinels.2.2.2.2.1
      ⟨some "c1", JsVal.vStr "not json[", JsVal.vUndef, none, TsVal.missing, none⟩
      "not json[" rfl
      (fun l h => by
        rw [show jsonParse "not json[" = none from rfl] at h
        exact Option.noConfusion h)
  · exact claim3_parse_failure_sentinels.2.2.2.2.2
      ⟨some "c1", JsVal.vStr "[not json", JsVal.vUndef, none, TsVal.missing, none⟩
      "[not json" rfl rfl
      (fun l h => by
        rw [show jsonParse "[not json" = none from rfl] at h
        exact Option.noConfusion h)

/-- Claim C6, counterexample: the subscription sort maps an unresolved
timestamp to the millisecond value 0, not to the minimum possible value.
With resolved timestamps T1 = -3000ms, T2 = -2000ms, T3 = -1000ms (all
before the epoch, so T1 < T2 < T3 as the claim requires) and the input
order [T3, T1, Unresolved, T2], the produced order places the unresolved
entry first — the claim demands [T3, T2, T1, Unresolved] with the
unresolved entry never first. -/
theorem claim6_counterexample :
    (sortConversations
      [⟨some "t3", JsVal.vUndef, JsVal.vUndef, none, TsVal.fsT ⟨-1, 0⟩, none⟩,
       ⟨some "t1", JsVal.vUndef, JsVal.vUndef, none, TsVal.fsT ⟨-3, 0⟩, none⟩,
       ⟨some "u", JsVal.vUndef, JsVal.vUndef, none, TsVal.placeholder, none⟩,
       ⟨some "t2", JsVal.vUndef, JsVal.vUndef, none, TsVal.fsT ⟨-2, 0⟩, none⟩]).map
      Conversation.id = [some "u", some "t3", some "t2", some "t1"] ∧
    tsToMillis ⟨-3, 0⟩ < tsToMillis ⟨-2, 0⟩ ∧
    tsToMillis ⟨-2, 0⟩ < tsToMillis ⟨-1, 0⟩ := by
  refine ⟨rfl, by decide, by decide⟩

/-- Claim C6, amended: the subscription sort orders conversations by
toMillis descending with an unresolved timestamp contributing 0 rather
than the minimum value; therefore for timestamps [T3, T1, Unresolved, T2]
with 0 < T1 < T2 < T3 the produced order is [T3, T2, T1, Unresolved] (and
the unresolved entry is never first), while resolved timestamps below 0
would sort after the unresolved entry. -/
theorem claim6_sort_amended :
    ∀ (a b u c : Conversation) (t1 t2 t3 : Int),
      convSortKey a = t3 → convSortKey b = t1 → convSortKey c = t2 →
      u.lastMessageTimestamp = TsVal.placeholder →
      0 < t1 → t1 < t2 → t2 < t3 →
      sortConversations [a, b, u, c] = [a, c, b, u] := by
  intro a b u c t1 t2 t3 ha hb hc hu h1 h12 h23
  have hu0 : convSortKey u = 0 := by
    unfold convSortKey
    rw [hu]
  have hab : convCmp a b ≤ 0 := by unfold convCmp; rw [ha, hb]; omega
  have hau : convCmp a u ≤ 0 := by unfold convCmp; rw [ha, hu0]; omega
  have hbu : convCmp b u ≤ 0 := by unfold convCmp; rw [hb, hu0]; omega
  have hac : convCmp a c ≤ 0 := by unfold convCmp; rw [ha, hc]; omega
  have hbc : ¬convCmp b c ≤ 0 := by unfold convCmp; rw [hb, hc]; omega
  show insertCmp convCmp c (insertCmp convCmp u (insertCmp convCmp b
    (insertCmp convCmp a []))) = [a, c, b, u]
  rw [show insertCmp convCmp a [] = [a] from rfl]
  rw [show insertCmp convCmp b [a] =
      if convCmp a b ≤ 0 then a :: insertCmp convCmp b [] else b :: [a] from rfl,
    if_pos hab, show insertCmp convCmp b [] = [b] from rfl]
  rw [show insertCmp convCmp u [a, b] =
      if convCmp a u ≤ 0 then a :: insertCmp convCmp u [b] else u :: [a, b] from rfl,
    if_pos hau,
    show insertCmp convCmp u [b] =
      if convCmp b u ≤ 0 then b :: insertCmp convCmp u [] else u :: [b] from rfl,
    if_pos hbu, show insertCmp convCmp u [] = [u] from rfl]
  rw [show insertCmp convCmp c [a, b, u] =
      if convCmp a c ≤ 0 then a :: insertCmp convCmp c [b, u] else c :: [a, b, u] from rfl,
    if_pos hac,
    show insertCmp convCmp c [b, u] =
      if convCmp b c ≤ 0 then b :: insertCmp convCmp c [u] else c :: [b, u] from rfl,
    if_neg hbc]

/-- Claim C6, amended, witness: with positive resolved timestamps
1000ms < 2000ms < 3000ms the produced order is descending with the
unresolved entry last. -/
theorem claim6_witness :
    sortConversations
      [⟨some "t3", JsVal.vUndef, JsVal.vUndef, none, TsVal.fsT ⟨3, 0⟩, none⟩,
       ⟨some "t1", JsVal.vUndef, JsVal.vUndef, none, TsVal.fsT ⟨1, 0⟩, none⟩,
       ⟨some "u", JsVal.vUndef, JsVal.vUndef, none, TsVal.placeholder, none⟩,
       ⟨some "t2", JsVal.vUndef, JsVal.vUndef, none, TsVal.fsT ⟨2, 0⟩, none⟩] =
      [⟨some "t3", JsVal.vUndef, JsVal.vUndef, none, TsVal.fsT ⟨3, 0⟩, none⟩,
       ⟨some "t2", JsVal.vUndef, JsVal.vUndef, none, TsVal.fsT ⟨2, 0⟩, none⟩,
       ⟨some "t1", JsVal.vUndef, JsVal.vUndef, none, TsVal.fsT ⟨1, 0⟩, none⟩,
       ⟨some "u", JsVal.vUndef, JsVal.vUndef, none, TsVal.placeholder, none⟩] :=
  claim6_sort_amended
    ⟨some "t3", JsVal.vUndef, JsVal.vUndef, none, TsVal.fsT ⟨3, 0⟩, none⟩
    ⟨some "t1", JsVal.vUndef, JsVal.vUndef, none, TsVal.fsT ⟨1, 0⟩, none⟩
    ⟨some "u", JsVal.vUndef, JsVal.vUndef, none, TsVal.placeholder, none⟩
    ⟨some "t2", JsVal.vUndef, JsVal.vUndef, none, TsVal.fsT ⟨2, 0⟩, none⟩
    1000 2000 3000 rfl rfl rfl rfl (by decide) (by decide) (by decide)

/-! ## Helper lemmas: the stable sort is a permutation -/

theorem insertCmp_perm (cmp : α → α → Int) (x : α) (l : List α) :
    List.Perm (insertCmp cmp x l) (x :: l) := by
  induction l with
  | nil => exact List.Perm.refl _
  | cons y ys ih =>
    unfold insertCmp
    by_cases h : cmp y x ≤ 0
    · rw [if_pos h]
      exact (ih.cons y).trans (List.Perm.swap x y ys)
    · rw [if_neg h]

theorem jsSort_go_perm (cmp : α → α → Int) :
    ∀ (l acc : List α),
      List.Perm (List.foldl (fun acc x => insertCmp cmp x acc) acc l) (acc ++ l) := by
  intro l
  induction l with
  | nil => intro acc; simp
  | cons x xs ih =>
    intro acc
    have h1 := ih (insertCmp cmp x acc)
    have h2 : List.Perm (insertCmp cmp x acc ++ xs) ((x :: acc) ++ xs) :=
      (insertCmp_perm cmp x acc).append_right xs
    have h3 : List.Perm ((x :: acc) ++ xs) (acc ++ x :: xs) :=
      List.perm_middle.symm
    exact (h1.trans h2).trans h3

theorem jsSort_perm (cmp : α → α → Int) (l : List α) :
    List.Perm (jsSort cmp l) l := by
  have h := jsSort_go_perm cmp l []
  simpa [jsSort] using h

theorem mem_jsSort (cmp : α → α → Int) (l : List α) (a : α) :
    a ∈ jsSort cmp l ↔ a ∈ l :=
  (jsSort_perm cmp l).mem_iff

/-! ## Helper lemmas: the insertion-ordered map of the dedup pass -/

theorem mem_mapSet_self (k : String) (v : Message) (l : List (String × Message)) :
    (k, v) ∈ mapSet k v l := by
  induction l with
  | nil => exact List.mem_singleton.mpr rfl
  | cons kv rest ih =>
    obtain ⟨k2, v2⟩ := kv
    unfold mapSet
    by_cases h : k2 = k
    · rw [if_pos h]
      exact List.mem_cons_self _ _
    · rw [if_neg h]
      exact List.mem_cons_of_mem _ ih

theorem mem_mapSet_sound (k : String) (v : Message) (l : List (String × Message))
    (kv : String × Message) (h : kv ∈ mapSet k v l) : kv = (k, v) ∨ kv ∈ l := by
  induction l with
  | nil =>
    rcases List.mem_singleton.mp h with h2
    exact Or.inl h2
  | cons kv2 rest ih =>
    obtain ⟨k2, v2⟩ := kv2
    unfold mapSet at h
    by_cases he : k2 = k
    · rw [if_pos he] at h
      rcases List.mem_cons.mp h with h2 | h2
      · exact Or.inl h2
      · exact Or.inr (List.mem_cons_of_mem _ h2)
    · rw [if_neg he] at h
      rcases List.mem_cons.mp h with h2 | h2
      · exact Or.inr (h2 ▸ List.mem_cons_self _ _)
      · rcases ih h2 with h3 | h3
        · exact Or.inl h3
        · exact Or.inr (List.mem_cons_of_mem _ h3)

theorem mem_mapSet_preserve (k : String) (v : Message) (l : List (String × Message))
    (kv : String × Message) (hne : kv.1 ≠ k) (h : kv ∈ l) : kv ∈ mapSet k v l := by
  induction l with
  | nil => exact absurd h (List.not_mem_nil kv)
  | cons kv2 rest ih =>
    obtain ⟨k2, v2⟩ := kv2
    unfold mapSet
    by_cases he : k2 = k
    · rw [if_pos he]
      rcases List.mem_cons.mp h with h2 | h2
      · exact absurd (congrArg Prod.fst h2) (by simpa [he] using hne)
      · exact List.mem_cons_of_mem _ h2
    · rw [if_neg he]
      rcases List.mem_cons.mp h with h2 | h2
      · exact h2 ▸ List.mem_cons_self _ _
      · exact List.mem_cons_of_mem _ (ih h2)

theorem keys_mapSet_mem (k : String) (v : Message) (l : List (String × Message))
    (h : k ∈ l.map Prod.fst) :
    (mapSet k v l).map Prod.fst = l.map Prod.fst := by
  induction l with
  | nil => simp at h
  | cons kv rest ih =>
    obtain ⟨k2, v2⟩ := kv
    unfold mapSet
    by_cases he : k2 = k
    · rw [if_pos he]
      simp [he]
    · rw [if_neg he]
      simp only [List.map_cons]
      rw [ih]
      rcases List.mem_cons.mp h with h2 | h2
      · exact absurd h2.symm he
      · exact h2

theorem keys_mapSet_notmem (k : String) (v : Message) (l : List (String × Message))
    (h : k ∉ l.map Prod.fst) :
    (mapSet k v l).map Prod.fst = l.map Prod.fst ++ [k] := by
  induction l with
  | nil => rfl
  | cons kv rest ih =>
    obtain ⟨k2, v2⟩ := kv
    unfold mapSet
    by_cases he : k2 = k
    · exact absurd (he ▸ List.mem_cons_self k2 _) h
    · rw [if_neg he]
      simp only [List.map_cons, List.cons_append]
      rw [ih (fun hc => h (List.mem_cons_of_mem _ hc))]

theorem nodup_keys_mapSet (k : String) (v : Message) (l : List (String × Message))
    (h : (l.map Prod.fst).Nodup) : ((mapSet k v l).map Prod.fst).Nodup := by
  by_cases hm : k ∈ l.map Prod.fst
  · rw [keys_mapSet_mem k v l hm]
    exact h
  · rw [keys_mapSet_notmem k v l hm]
    simp [List.nodup_append, h, hm]

theorem mapGet_eq_some_mem (k : String) (v : Message) (l : List (String × Message))
    (h : mapGet k l = some v) : (k, v) ∈ l := by
  induction l with
  | nil => exact Option.noConfusion h
  | cons kv rest ih =>
    obtain ⟨k2, v2⟩ := kv
    unfold mapGet at h
    by_cases he : k2 = k
    · rw [if_pos he] at h
      rw [Option.some_inj] at h
      subst he h
      exact List.mem_cons_self _ _
    · rw [if_neg he] at h
      exact List.mem_cons_of_mem _ (ih h)

theorem mapGet_none_notmem (k : String) (l : List (String × Message))
    (h : mapGet k l = none) : k ∉ l.map Prod.fst := by
  induction l with
  | nil => simp
  | cons kv rest ih =>
    obtain ⟨k2, v2⟩ := kv
    unfold mapGet at h
    by_cases he : k2 = k
    · rw [if_pos he] at h
      exact Option.noConfusion h
    · rw [if_neg he] at h
      simp only [List.map_cons, List.mem_cons]
      rintro (h2 | h2)
      · exact he h2.symm
      · exact ih h h2

theorem mem_mapGet (k : String) (v : Message) (l : List (String × Message))
    (hnd : (l.map Prod.fst).Nodup) (h : (k, v) ∈ l) : mapGet k l = some v := by
  induction l with
  | nil => exact absurd h (List.not_mem_nil _)
  | cons kv rest ih =>
    obtain ⟨k2, v2⟩ := kv
    simp only [List.map_cons, List.nodup_cons] at hnd
    unfold mapGet
    rcases List.mem_cons.mp h with h2 | h2
    · obtain ⟨hk, hv⟩ := Prod.mk.injEq .. ▸ h2.symm
      rw [if_pos hk, hv]
    · by_cases he : k2 = k
      · subst he
        exact absurd (List.mem_map_of_mem Prod.fst h2) hnd.1
      · rw [if_neg he]
        exact ih hnd.2 h2

theorem keys_nodup_unique (k : String) (a b : Message) (l : List (String × Message))
    (hnd : (l.map Prod.fst).Nodup) (ha : (k, a) ∈ l) (hb : (k, b) ∈ l) : a = b := by
  have h1 := mem_mapGet k a l hnd ha
  have h2 := mem_mapGet k b l hnd hb
  rw [h1] at h2
  exact Option.some_inj.mp h2

/-! ## Helper lemmas: invariants of the dedup fold -/

theorem dedupStep_eq_none (acc : List (String × Message)) (p : Nat × Message)
    (hid : p.2.id ≠ "") (hg : mapGet p.2.id acc = none) :
    dedupStep acc p = mapSet p.2.id p.2 acc := by
  unfold dedupStep
  rw [if_pos hid, hg]

theorem dedupStep_eq_some (acc : List (String × Message)) (p : Nat × Message)
    (existing : Message) (hid : p.2.id ≠ "")
    (hg : mapGet p.2.id acc = some existing) :
    dedupStep acc p =
      if msgTimeOr0 p.2 > msgTimeOr0 existing then mapSet p.2.id p.2 acc
      else acc := by
  unfold dedupStep
  rw [if_pos hid, hg]

theorem dedupStep_eq_temp (acc : List (String × Message)) (p : Nat × Message)
    (hid : ¬p.2.id ≠ "") :
    dedupStep acc p = mapSet ("temp_" ++ toString p.1) p.2 acc := by
  unfold dedupStep
  rw [if_neg hid]

theorem dedupStep_mem_sound (acc : List (String × Message)) (p : Nat × Message)
    (kv : String × Message) (h : kv ∈ dedupStep acc p) :
    kv ∈ acc ∨ kv.2 = p.2 := by
  by_cases hid : p.2.id ≠ ""
  · rcases hg : mapGet p.2.id acc with _ | existing
    · rw [dedupStep_eq_none acc p hid hg] at h
      rcases mem_mapSet_sound _ _ _ _ h with h2 | h2
      · exact Or.inr (congrArg Prod.snd h2)
      · exact Or.inl h2
    · rw [dedupStep_eq_some acc p existing hid hg] at h
      by_cases ht : msgTimeOr0 p.2 > msgTimeOr0 existing
      · rw [if_pos ht] at h
        rcases mem_mapSet_sound _ _ _ _ h with h2 | h2
        · exact Or.inr (congrArg Prod.snd h2)
        · exact Or.inl h2
      · rw [if_neg ht] at h
        exact Or.inl h
  · rw [dedupStep_eq_temp acc p hid] at h
    rcases mem_mapSet_sound _ _ _ _ h with h2 | h2
    · exact Or.inr (congrArg Prod.snd h2)
    · exact Or.inl h2

theorem dedupStep_nodup (acc : List (String × Message)) (p : Nat × Message)
    (h : (acc.map Prod.fst).Nodup) : ((dedupStep acc p).map Prod.fst).Nodup := by
  by_cases hid : p.2.id ≠ ""
  · rcases hg : mapGet p.2.id acc with _ | existing
    · rw [dedupStep_eq_none acc p hid hg]
      exact nodup_keys_mapSet _ _ _ h
    · rw [dedupStep_eq_some acc p existing hid hg]
      by_cases ht : msgTimeOr0 p.2 > msgTimeOr0 existing
      · rw [if_pos ht]
        exact nodup_keys_mapSet _ _ _ h
      · rw [if_neg ht]
        exact h
  · rw [dedupStep_eq_temp acc p hid]
    exact nodup_keys_mapSet _ _ _ h

theorem dedupGo_sound :
    ∀ (l : List (Nat × Message)) (acc : List (String × Message))
      (kv : String × Message), kv ∈ dedupGo acc l →
      kv ∈ acc ∨ kv.2 ∈ l.map Prod.snd := by
  intro l
  induction l with
  | nil => intro acc kv h; exact Or.inl h
  | cons p rest ih =>
    intro acc kv h
    rcases ih (dedupStep acc p) kv h with h2 | h2
    · rcases dedupStep_mem_sound acc p kv h2 with h3 | h3
      · exact Or.inl h3
      · exact Or.inr (by simp [h3])
    · exact Or.inr (List.mem_cons_of_mem _ h2)

theorem dedupGo_nodup :
    ∀ (l : List (Nat × Message)) (acc : List (String × Message)),
      (acc.map Prod.fst).Nodup → ((dedupGo acc l).map Prod.fst).Nodup := by
  intro l
  induction l with
  | nil => intro acc h; exact h
  | cons p rest ih =>
    intro acc h
    exact ih (dedupStep acc p) (dedupStep_nodup acc p h)

theorem dedupGo_key_eq_id :
    ∀ (l : List (Nat × Message)) (acc : List (String × Message)),
      (∀ p ∈ l, (p.2).id ≠ "") → (∀ kv ∈ acc, kv.1 = kv.2.id) →
      ∀ kv ∈ dedupGo acc l, kv.1 = kv.2.id := by
  intro l
  induction l with
  | nil => intro acc _ hacc kv h; exact hacc kv h
  | cons p rest ih =>
    intro acc hid hacc kv h
    refine ih (dedupStep acc p) (fun q hq => hid q (List.mem_cons_of_mem _ hq))
      ?_ kv h
    intro kv2 h2
    have hp : p.2.id ≠ "" := hid p (List.mem_cons_self _ _)
    rcases hg : mapGet p.2.id acc with _ | existing
    · rw [dedupStep_eq_none acc p hp hg] at h2
      rcases mem_mapSet_sound _ _ _ _ h2 with h3 | h3
      · rw [h3]
      · exact hacc kv2 h3
    · rw [dedupStep_eq_some acc p existing hp hg] at h2
      by_cases ht : msgTimeOr0 p.2 > msgTimeOr0 existing
      · rw [if_pos ht] at h2
        rcases mem_mapSet_sound _ _ _ _ h2 with h3 | h3
        · rw [h3]
        · exact hacc kv2 h3
      · rw [if_neg ht] at h2
        exact hacc kv2 h2

theorem dedupGo_mono :
    ∀ (l : List (Nat × Message)) (acc : List (String × Message)),
      (∀ p ∈ l, (p.2).id ≠ "") →
      (acc.map Prod.fst).Nodup →
      ∀ (k : String) (v : Message), (k, v) ∈ acc →
      ∃ v2, (k, v2) ∈ dedupGo acc l ∧ msgTimeOr0 v ≤ msgTimeOr0 v2 := by
  intro l
  induction l with
  | nil => intro acc _ _ k v h; exact ⟨v, h, le_refl _⟩
  | cons p rest ih =>
    intro acc hid hnd k v h
    have hnd2 := dedupStep_nodup acc p hnd
    have hp : p.2.id ≠ "" := hid p (List.mem_cons_self _ _)
    have hstep : ∃ v1, (k, v1) ∈ dedupStep acc p ∧ msgTimeOr0 v ≤ msgTimeOr0 v1 := by
      rcases hg : mapGet p.2.id acc with _ | existing
      · rw [dedupStep_eq_none acc p hp hg]
        have hk : k ≠ p.2.id := by
          intro he
          exact (mapGet_none_notmem _ _ hg)
            (he ▸ List.mem_map_of_mem Prod.fst h)
        exact ⟨v, mem_mapSet_preserve _ _ _ _ hk h, le_refl _⟩
      · rw [dedupStep_eq_some acc p existing hp hg]
        by_cases ht : msgTimeOr0 p.2 > msgTimeOr0 existing
        · rw [if_pos ht]
          by_cases hk : k = p.2.id
          · subst hk
            have hveq : v = existing :=
              Option.some_inj.mp ((mem_mapGet _ v acc hnd h).symm.trans hg)
            subst hveq
            exact ⟨p.2, mem_mapSet_self _ _ _, le_of_lt ht⟩
          · exact ⟨v, mem_mapSet_preserve _ _ _ _ hk h, le_refl _⟩
        · rw [if_neg ht]
          exact ⟨v, h, le_refl _⟩
    obtain ⟨v1, hv1, hle1⟩ := hstep
    obtain ⟨v2, hv2, hle2⟩ := ih (dedupStep acc p)
      (fun q hq => hid q (List.mem_cons_of_mem _ hq)) hnd2 k v1 hv1
    exact ⟨v2, hv2, le_trans hle1 hle2⟩

theorem dedupGo_max :
    ∀ (l : List (Nat × Message)) (acc : List (String × Message)),
      (∀ p ∈ l, (p.2).id ≠ "") →
      (acc.map Prod.fst).Nodup →
      ∀ kv ∈ dedupGo acc l, ∀ p ∈ l, (p.2).id = kv.1 →
      msgTimeOr0 p.2 ≤ msgTimeOr0 kv.2 := by
  intro l
  induction l with
  | nil => intro acc _ _ kv _ p hp; exact absurd hp (List.not_mem_nil p)
  | cons p0 rest ih =>
    intro acc hid hnd kv hkv p hp hpid
    have hid0 : p0.2.id ≠ "" := hid p0 (List.mem_cons_self _ _)
    have hidr : ∀ q ∈ rest, (q.2).id ≠ "" :=
      fun q hq => hid q (List.mem_cons_of_mem _ hq)
    have hnd2 := dedupStep_nodup acc p0 hnd
    rcases List.mem_cons.mp hp with hpe | hpr
    · subst hpe
      have hstep : ∃ v1, (p.2.id, v1) ∈ dedupStep acc p ∧
          msgTimeOr0 p.2 ≤ msgTimeOr0 v1 := by
        rcases hg : mapGet p.2.id acc with _ | existing
        · rw [dedupStep_eq_none acc p hid0 hg]
          exact ⟨p.2, mem_mapSet_self _ _ _, le_refl _⟩
        · rw [dedupStep_eq_some acc p existing hid0 hg]
          by_cases ht : msgTimeOr0 p.2 > msgTimeOr0 existing
          · rw [if_pos ht]
            exact ⟨p.2, mem_mapSet_self _ _ _, le_refl _⟩
          · rw [if_neg ht]
            exact ⟨existing, mapGet_eq_some_mem _ _ _ hg, le_of_not_lt ht⟩
      obtain ⟨v1, hv1, hle1⟩ := hstep
      obtain ⟨v2, hv2, hle2⟩ := dedupGo_mono rest (dedupStep acc p) hidr hnd2
        p.2.id v1 hv1
      obtain ⟨k, v⟩ := kv
      simp only at hpid
      subst hpid
      have hveq : v = v2 :=
        keys_nodup_unique _ _ _ _ (dedupGo_nodup rest (dedupStep acc p) hnd2)
          hkv hv2
      subst hveq
      exact le_trans hle1 hle2
    · exact ih (dedupStep acc p0) hidr hnd2 kv hkv p hpr hpid

theorem dedupGo_presence :
    ∀ (l : List (Nat × Message)) (acc : List (String × Message)),
      (∀ p ∈ l, (p.2).id ≠ "") →
      (acc.map Prod.fst).Nodup →
      ∀ p ∈ l, ∃ kv ∈ dedupGo acc l, kv.1 = (p.2).id := by
  intro l
  induction l with
  | nil => intro acc _ _ p hp; exact absurd hp (List.not_mem_nil p)
  | cons p0 rest ih =>
    intro acc hid hnd p hp
    have hid0 : p0.2.id ≠ "" := hid p0 (List.mem_cons_self _ _)
    have hidr : ∀ q ∈ rest, (q.2).id ≠ "" :=
      fun q hq => hid q (List.mem_cons_of_mem _ hq)
    have hnd2 := dedupStep_nodup acc p0 hnd
    rcases List.mem_cons.mp hp with hpe | hpr
    · subst hpe
      have hstep : ∃ v1, (p.2.id, v1) ∈ dedupStep acc p := by
        rcases hg : mapGet p.2.id acc with _ | existing
        · rw [dedupStep_eq_none acc p hid0 hg]
          exact ⟨p.2, mem_mapSet_self _ _ _⟩
        · rw [dedupStep_eq_some acc p existing hid0 hg]
          by_cases ht : msgTimeOr0 p.2 > msgTimeOr0 existing
          · rw [if_pos ht]
            exact ⟨p.2, mem_mapSet_self _ _ _⟩
          · rw [if_neg ht]
            exact ⟨existing, mapGet_eq_some_mem _ _ _ hg⟩
      obtain ⟨v1, hv1⟩ := hstep
      obtain ⟨v2, hv2, _⟩ := dedupGo_mono rest (dedupStep acc p) hidr hnd2
        p.2.id v1 hv1
      exact ⟨(p.2.id, v2), hv2, rfl⟩
    · exact ih (dedupStep acc p0) hidr hnd2 p hpr

theorem enumFrom_map_snd (n : Nat) (l : List α) :
    (l.enumFrom n).map Prod.snd = l := by
  induction l generalizing n with
  | nil => rfl
  | cons x xs ih => simp [List.enumFrom, ih]

theorem enum_map_snd (l : List α) : l.enum.map Prod.snd = l :=
  enumFrom_map_snd 0 l

/-! ## Helper lemmas: the mobile message pipeline -/

theorem mem_dedupMessages_sound (l : List Message) (m : Message)
    (h : m ∈ dedupMessages l) : m ∈ l := by
  unfold dedupMessages at h
  obtain ⟨kv, hkv, hsnd⟩ := List.mem_map.mp h
  rcases dedupGo_sound l.enum [] kv hkv with h2 | h2
  · exact absurd h2 (List.not_mem_nil kv)
  · rw [enum_map_snd] at h2
    exact hsnd ▸ h2

theorem mem_output_valid (now : Int) (msgs : List Message) (m : Message)
    (h : m ∈ mobileMessagesOutput now msgs) :
    m ∈ msgs ∧ mobileValidMessage now m = true := by
  unfold mobileMessagesOutput at h
  have h2 := mem_dedupMessages_sound _ m ((mem_jsSort _ _ m).mp h)
  exact List.mem_filter.mp h2

theorem filtered_enum_ids (now : Int) (msgs : List Message)
    (hids : ∀ m0 ∈ msgs, m0.id ≠ "") :
    ∀ p ∈ (msgs.filter (mobileValidMessage now)).enum, (p.2).id ≠ "" := by
  intro p hp
  have h1 : p.2 ∈ (msgs.filter (mobileValidMessage now)).enum.map Prod.snd :=
    List.mem_map_of_mem Prod.snd hp
  rw [enum_map_snd] at h1
  exact hids p.2 (List.mem_filter.mp h1).1

/-- The validity test of the mobile pipeline, characterized: a message
passes exactly when its timestamp is a resolved Firestore Timestamp whose
milliseconds are positive, below MAX_SAFE_INTEGER and at most one hour
ahead of the local clock. -/
theorem mobileValid_iff (now : Int) (m : Message) :
    mobileValidMessage now m = true ↔
    ∃ t : FsTimestamp, m.timestamp = TsVal.fsT t ∧ 0 < tsToMillis t ∧
      tsToMillis t < 9007199254740991 ∧ tsToMillis t ≤ now + 60 * 60 * 1000 := by
  unfold mobileValidMessage
  cases hts : m.timestamp with
  | fsT t =>
    constructor
    · intro hv
      dsimp only at hv
      split_ifs at hv with h1 h2
      exact ⟨t, rfl, h1.2.1, h1.2.2, by omega⟩
    · rintro ⟨t2, ht2, hpos, hmax, hfut⟩
      have hteq : t = t2 := by
        injection ht2
      subst hteq
      dsimp only
      rw [if_pos ⟨by omega, hpos, hmax⟩, if_neg (by omega)]
  | missing => simp [hts]
  | placeholder => simp [hts]
  | date ms => simp [hts]
  | num n => simp [hts]

/-- Claim C8: the list the mobile per-conversation subscription passes on
excludes every message whose timestamp is not a resolved, valid value (in
particular every pending server-timestamp placeholder); deliveries sharing
a message id are collapsed to a single entry (ids in the output are
distinct, and every valid delivery is represented); among duplicates the
kept entry carries the greatest resolved millisecond value.  The dashboard
display pipeline likewise excludes every message without a valid resolved
timestamp. -/
theorem claim8_snapshot_pipeline :
    (∀ (now : Int) (msgs : List Message) (m : Message),
      m ∈ mobileMessagesOutput now msgs →
      m ∈ msgs ∧ mobileValidMessage now m = true) ∧
    (∀ (now : Int) (msgs : List Message),
      (∀ m0 ∈ msgs, m0.id ≠ "") →
      ((mobileMessagesOutput now msgs).map Message.id).Nodup) ∧
    (∀ (now : Int) (msgs : List Message) (m m2 : Message),
      (∀ m0 ∈ msgs, m0.id ≠ "") →
      m ∈ mobileMessagesOutput now msgs →
      m2 ∈ msgs → mobileValidMessage now m2 = true → m2.id = m.id →
      msgTimeOr0 m2 ≤ msgTimeOr0 m) ∧
    (∀ (now : Int) (msgs : List Message) (m2 : Message),
      (∀ m0 ∈ msgs, m0.id ≠ "") →
      m2 ∈ msgs → mobileValidMessage now m2 = true →
      ∃ m ∈ mobileMessagesOutput now msgs, m.id = m2.id) ∧
    (∀ (msgs : List Message) (m : Message),
      m ∈ sortedMessages msgs →
      tsTruthy m.timestamp = true ∧ isValidTimestamp m.timestamp = true) := by
  refine ⟨mem_output_valid, ?_, ?_, ?_, ?_⟩
  · intro now msgs hids
    have hid2 := filtered_enum_ids now msgs hids
    have hnd : ((dedupGo [] (msgs.filter (mobileValidMessage now)).enum).map
        Prod.fst).Nodup :=
      dedupGo_nodup _ [] (by simp)
    have hkey : ∀ kv ∈ dedupGo [] (msgs.filter (mobileValidMessage now)).enum,
        kv.1 = kv.2.id :=
      dedupGo_key_eq_id _ [] hid2 (fun kv h => absurd h (List.not_mem_nil kv))
    have hmapeq : (dedupGo [] (msgs.filter (mobileValidMessage now)).enum).map
        Prod.fst =
        ((dedupGo [] (msgs.filter (mobileValidMessage now)).enum).map
          Prod.snd).map Message.id := by
      rw [List.map_map]
      exact List.map_congr_left hkey
    rw [hmapeq] at hnd
    have hperm : List.Perm
        ((mobileMessagesOutput now msgs).map Message.id)
        (((dedupGo [] (msgs.filter (mobileValidMessage now)).enum).map
          Prod.snd).map Message.id) :=
      (jsSort_perm mobileMsgCmp _).map Message.id
    exact hperm.nodup_iff.mpr hnd
  · intro now msgs m m2 hids hm hm2 hv2 hid2
    obtain ⟨kv, hkv, hsnd⟩ := List.mem_map.mp
      ((mem_jsSort mobileMsgCmp _ m).mp hm)
    have hkey : kv.1 = kv.2.id :=
      dedupGo_key_eq_id _ [] (filtered_enum_ids now msgs hids)
        (fun kv0 h0 => absurd h0 (List.not_mem_nil kv0)) kv hkv
    have hm2f : m2 ∈ msgs.filter (mobileValidMessage now) :=
      List.mem_filter.mpr ⟨hm2, hv2⟩
    rw [← enum_map_snd (msgs.filter (mobileValidMessage now))] at hm2f
    obtain ⟨p, hp, hpsnd⟩ := List.mem_map.mp hm2f
    have := dedupGo_max _ [] (filtered_enum_ids now msgs hids) (by simp)
      kv hkv p hp (by rw [hpsnd, hid2, ← hsnd, hkey])
    rw [hpsnd] at this
    rw [← hsnd]
    exact this
  · intro now msgs m2 hids hm2 hv2
    have hm2f : m2 ∈ msgs.filter (mobileValidMessage now) :=
      List.mem_filter.mpr ⟨hm2, hv2⟩
    rw [← enum_map_snd (msgs.filter (mobileValidMessage now))] at hm2f
    obtain ⟨p, hp, hpsnd⟩ := List.mem_map.mp hm2f
    obtain ⟨kv, hkv, hkey⟩ := dedupGo_presence _ [] (filtered_enum_ids now msgs hids)
      (by simp) p hp
    refine ⟨kv.2, ?_, ?_⟩
    · exact (mem_jsSort mobileMsgCmp _ kv.2).mpr
        (List.mem_map_of_mem Prod.snd hkv)
    · have := dedupGo_key_eq_id _ [] (filtered_enum_ids now msgs hids)
        (fun kv0 h0 => absurd h0 (List.not_mem_nil kv0)) kv hkv
      rw [← this, hkey, hpsnd]
  · intro msgs m hm
    unfold sortedMessages at hm
    by_cases h1 : msgs.isEmpty
    · rw [if_pos h1] at hm
      exact absurd hm (List.not_mem_nil m)
    · rw [if_neg h1] at hm
      by_cases h2 : (msgs.filter
          (fun m => tsTruthy m.timestamp && isValidTimestamp m.timestamp)).isEmpty
      · rw [if_pos h2] at hm
        exact absurd hm (List.not_mem_nil m)
      · rw [if_neg h2] at hm
        have := (List.mem_filter.mp ((mem_jsSort dashMsgCmp _ m).mp hm)).2
        exact ⟨(Bool.and_eq_true _ _ |>.mp this).1,
          (Bool.and_eq_true _ _ |>.mp this).2⟩

/-- Claim C8, witness: for a snapshot holding two deliveries of message m1
(one second 1000, one second 2000) and a placeholder message m2, the output
is the single resolved m1 delivery with the greater timestamp, and the
dashboard pipeline keeps only validly timestamped messages. -/
theorem claim8_witness :
    mobileMessagesOutput 100000000
      [⟨"m1", "s", "a", TsVal.fsT ⟨1000, 0⟩⟩,
       ⟨"m1", "s", "b", TsVal.fsT ⟨2000, 0⟩⟩,
       ⟨"m2", "s", "c", TsVal.placeholder⟩] =
      [⟨"m1", "s", "b", TsVal.fsT ⟨2000, 0⟩⟩] ∧
    mobileValidMessage 100000000 ⟨"m1", "s", "b", TsVal.fsT ⟨2000, 0⟩⟩ = true ∧
    ((mobileMessagesOutput 100000000
      [⟨"m1", "s", "a", TsVal.fsT ⟨1000, 0⟩⟩,
       ⟨"m1", "s", "b", TsVal.fsT ⟨2000, 0⟩⟩,
       ⟨"m2", "s", "c", TsVal.placeholder⟩]).map Message.id).Nodup ∧
    msgTimeOr0 ⟨"m1", "s", "a", TsVal.fsT ⟨1000, 0⟩⟩ ≤
      msgTimeOr0 ⟨"m1", "s", "b", TsVal.fsT ⟨2000, 0⟩⟩ ∧
    tsTruthy (TsVal.fsT ⟨2000, 0⟩) = true ∧
      isValidTimestamp (TsVal.fsT ⟨2000, 0⟩) = true := by
  refine ⟨rfl, ?_, ?_, ?_, ?_⟩
  · exact (mem_output_valid 100000000
      [⟨"m1", "s", "a", TsVal.fsT ⟨1000, 0⟩⟩,
       ⟨"m1", "s", "b", TsVal.fsT ⟨2000, 0⟩⟩,
       ⟨"m2", "s", "c", TsVal.placeholder⟩]
      ⟨"m1", "s", "b", TsVal.fsT ⟨2000, 0⟩⟩ (by decide)).2
  · exact claim8_snapshot_pipeline.2.1 100000000
      [⟨"m1", "s", "a", TsVal.fsT ⟨1000, 0⟩⟩,
       ⟨"m1", "s", "b", TsVal.fsT ⟨2000, 0⟩⟩,
       ⟨"m2", "s", "c", TsVal.placeholder⟩] (by decide)
  · exact claim8_snapshot_pipeline.2.2.1 100000000
      [⟨"m1", "s", "a", TsVal.fsT ⟨1000, 0⟩⟩,
       ⟨"m1", "s", "b", TsVal.fsT ⟨2000, 0⟩⟩,
       ⟨"m2", "s", "c", TsVal.placeholder⟩]
      ⟨"m1", "s", "b", TsVal.fsT ⟨2000, 0⟩⟩
      ⟨"m1", "s", "a", TsVal.fsT ⟨1000, 0⟩⟩
      (by decide) (by decide) (by decide) (by decide) (by decide)
  · exact claim8_snapshot_pipeline.2.2.2.2
      [⟨"m1", "s", "b", TsVal.fsT ⟨2000, 0⟩⟩]
      ⟨"m1", "s", "b", TsVal.fsT ⟨2000, 0⟩⟩ (by decide)

/-- Claim C10: the mobile per-conversation subscription delivers only
messages whose timestamp resolves to a positive finite millisecond value at
most one hour ahead of the local clock, and a fully resolved message whose
timestamp lies more than one hour in the future is silently dropped exactly
like a placeholder. -/
theorem claim10_future_drop :
    (∀ (now : Int) (msgs : List Message) (m : Message),
      m ∈ mobileMessagesOutput now msgs →
      ∃ t : FsTimestamp, m.timestamp = TsVal.fsT t ∧ 0 < tsToMillis t ∧
        tsToMillis t < 9007199254740991 ∧
        tsToMillis t ≤ now + 60 * 60 * 1000) ∧
    mobileMessagesOutput 1000000000000
      [⟨"m1", "s", "hello", TsVal.fsT ⟨1000003600, 1000000⟩⟩] = [] := by
  constructor
  · intro now msgs m hm
    exact (mobileValid_iff now m).mp (mem_output_valid now msgs m hm).2
  · rfl

/-- Claim C10, witness: a message with a resolved in-range timestamp is
delivered and the theorem yields its validity bounds. -/
theorem claim10_witness :
    ∃ t : FsTimestamp,
      (⟨"m1", "s", "hi", TsVal.fsT ⟨1000, 0⟩⟩ : Message).timestamp = TsVal.fsT t ∧
      0 < tsToMillis t ∧ tsToMillis t < 9007199254740991 ∧
      tsToMillis t ≤ 1000000 + 60 * 60 * 1000 :=
  claim10_future_drop.1 1000000 [⟨"m1", "s", "hi", TsVal.fsT ⟨1000, 0⟩⟩]
    ⟨"m1", "s", "hi", TsVal.fsT ⟨1000, 0⟩⟩ (by decide)

end FirebaseChat
